import Mathlib

/-!
Verification development for the pydrake_kuka repository.

The definitions below are a shallow embedding of the two source files
`kuka_ik.py` and `kuka_cutting_sim.py`.  Machine floats are modelled by `ℚ`;
numpy vectors by `List ℚ`; the external collaborators (the Drake IK solvers,
the physics simulator and the `PiecewisePolynomial.Pchip` interpolant, none of
which are part of the repository) are modelled as explicit oracle parameters
or, where their behaviour is load-bearing, by executable definitions that are
marked as modelled from the spec.
-/

namespace PydrakeKuka

/-! ### numpy-style vector helpers -/

/-- Elementwise `np.clip` on one scalar: `min(max(x, lo), hi)`. -/
def npClip (x lo hi : ℚ) : ℚ := min (max x lo) hi

/-- Elementwise `np.clip` on a vector against per-entry bounds. -/
def npClipVec (v lo hi : List ℚ) : List ℚ :=
  List.zipWith (fun x p => npClip x p.1 p.2) v (lo.zip hi)

/-- Fancy indexing `v[inds]`: the subvector of `v` at the listed indices. -/
def subVec (v : List ℚ) (inds : List ℕ) : List ℚ :=
  inds.map (fun i => v.getD i 0)

/-- `v + c` broadcast over a vector (used for the ±0.01 tolerance bands). -/
def addConst (v : List ℚ) (c : ℚ) : List ℚ := v.map (· + c)

/-- Fancy assignment `base[inds] = vals` (pairwise, as in numpy). -/
def scatterInto : List ℚ → List ℕ → List ℚ → List ℚ
  | base, [], _ => base
  | base, _ :: _, [] => base
  | base, i :: is, v :: vs => scatterInto (base.set i v) is vs

/-- `np.linspace a b n`: `n` evenly spaced samples from `a` to `b` inclusive. -/
def linspace (a b : ℚ) (n : ℕ) : List ℚ :=
  if n ≤ 1 then List.replicate n a
  else (List.range n).map (fun i : ℕ => a + (b - a) * (i : ℚ) / ((n : ℚ) - 1))

/-- First index at which `p` holds, or the length if it never holds
(helper for `np.argmax` over a boolean array). -/
def findIdxAux {α : Type} (p : α → Bool) : List α → ℕ
  | [] => 0
  | x :: t => if p x then 0 else findIdxAux p t + 1

/-- `np.argmax(l >= c)`: index of the first entry `≥ c`, and `0` when no entry
qualifies (numpy returns the first maximum of an all-`False` array). -/
def np_argmax_ge (l : List ℚ) (c : ℚ) : ℕ :=
  if findIdxAux (fun x => decide (c ≤ x)) l < l.length then
    findIdxAux (fun x => decide (c ≤ x)) l
  else 0

/-- Python `range(a, b)` over integers. -/
def intRange (a b : ℤ) : List ℤ :=
  (List.range (b - a).toNat).map (fun k => a + (k : ℤ))

/-- Python negative-index-tolerant list read: `l[i]` with wraparound for
`i < 0`, defaulting to `d` out of range. -/
def pyGetD (l : List ℚ) (i : ℤ) (d : ℚ) : ℚ :=
  if i < 0 then l.getD (l.length - (-i).toNat) d else l.getD i.toNat d

/-! ### Data model: kinematic model, constraints, solver results -/

/-- The slice of a Drake `RigidBodyTree` that `kuka_ik.py` reads: position and
velocity counts and the per-position joint limits. -/
structure Rbt where
  nq : ℕ
  nv : ℕ
  joint_limit_min : List ℚ
  joint_limit_max : List ℚ

/-- The IK constraint variants assembled by `kuka_ik.py`.  `tspan` is the
active time span; bound vectors are listed low/high. -/
inductive IkConstraint where
  | minDistance (minDist : ℚ)
  | postureLimits (tspan : ℚ × ℚ) (inds : List ℕ) (lb ub : List ℚ)
  | worldPosition (tspan : ℚ × ℚ) (lb ub : List ℚ)
  | worldEuler (tspan : ℚ × ℚ) (lb ub : List ℚ)
deriving DecidableEq

/-- Result of a single-instant `ik.InverseKin` call. -/
structure IkResult where
  q_sol : List (List ℚ)
  info : ℤ

/-- Result of an `ik.InverseKinTraj` call: one solution row per knot. -/
structure IkTrajResult where
  q_sol : List (List ℚ)
  info : ℤ

/-- The velocity bounds that `IKoptions.setqd0/setqdf` install. -/
structure TrajOptions where
  qd0_lb : List ℚ
  qd0_ub : List ℚ
  qdf_lb : List ℚ
  qdf_ub : List ℚ
deriving DecidableEq

/-- External single-instant IK solver (`ik.InverseKin`): arguments are the
model, the seed posture, the nominal posture and the constraint set. -/
def IkOracle : Type :=
  Rbt → List ℚ → List ℚ → List IkConstraint → IkResult

/-- External trajectory IK solver (`ik.InverseKinTraj`): arguments are the
model, the knot times, the per-knot seed, the per-knot nominal posture, the
constraint set and the velocity-bound options. -/
def TrajOracle : Type :=
  Rbt → List ℚ → (ℕ → ℕ → ℚ) → (ℕ → List ℚ) → List IkConstraint →
    TrajOptions → IkTrajResult

/-- Whether a solution row `q` satisfies a constraint at knot time `t`; only
posture constraints are checked, the geometric constraints are opaque here. -/
def constraint_holds_at (c : IkConstraint) (t : ℚ) (q : List ℚ) : Bool :=
  match c with
  | .postureLimits ts inds lb ub =>
    if ts.1 ≤ t ∧ t ≤ ts.2 then
      (List.range inds.length).all (fun m =>
        decide (lb.getD m 0 ≤ q.getD (inds.getD m 0) 0) &&
        decide (q.getD (inds.getD m 0) 0 ≤ ub.getD m 0))
    else true
  | _ => true

/-! ### `plan_ee_configuration` (kuka_ik.py lines 13-64) -/

/-- The constraint set assembled by `plan_ee_configuration`: a global
minimum-distance constraint, a posture band holding the non-controlled
joints at `q0 ± 0.01`, and position/orientation boxes around the target
end-effector pose.  `free_config_inds, constrained_config_inds` are the
output of the external `kuka_utils.extract_position_indices`. -/
def ee_configuration_constraints (q0 : List ℚ)
    (constrained_config_inds : List ℕ) (target_ee_pose : List ℚ) :
    List IkConstraint :=
  [ .minDistance (1/100),
    .postureLimits (0, 0) constrained_config_inds
      (addConst (subVec q0 constrained_config_inds) (-(1/100)))
      (addConst (subVec q0 constrained_config_inds) (1/100)),
    .worldPosition (0, 0)
      (addConst (target_ee_pose.take 3) (-(1/100)))
      (addConst (target_ee_pose.take 3) (1/100)),
    .worldEuler (0, 0)
      (addConst ((target_ee_pose.drop 3).take 3) (-(1/100)))
      (addConst ((target_ee_pose.drop 3).take 3) (1/100)) ]

/-- `plan_ee_configuration(rbt, q0, qseed, target_ee_pose)`: single-instant
IK.  Note that the solve is invoked as `ik.InverseKin(rbt, q0, q0, ...)`:
the `qseed` argument is accepted but never passed to the solver. -/
def plan_ee_configuration (solver : IkOracle) (rbt : Rbt)
    (q0 qseed target_ee_pose : List ℚ)
    (constrained_config_inds : List ℕ) : List ℚ × ℤ :=
  let constraints := ee_configuration_constraints q0
    constrained_config_inds target_ee_pose
  let results := solver rbt q0 q0 constraints
  (results.q_sol.getD 0 [], results.info)

/-- One call to a possibly stateful external IK solver: the hidden solver
state is threaded explicitly so that determinism can be stated. -/
structure SolveCall where
  rbt : Rbt
  qseed_arg : List ℚ
  q_nom : List ℚ
  constraints : List IkConstraint

/-- External solver with hidden internal state of type `σ`. -/
def StatefulIkOracle (σ : Type) : Type := σ → SolveCall → IkResult × σ

/-- `plan_ee_configuration` run against a stateful solver model: identical
body to `plan_ee_configuration`, with the solver state threaded through. -/
def plan_ee_configuration_stateful {σ : Type} (solver : StatefulIkOracle σ)
    (st : σ) (rbt : Rbt) (q0 qseed target_ee_pose : List ℚ)
    (constrained_config_inds : List ℕ) : (List ℚ × ℤ) × σ :=
  let constraints := ee_configuration_constraints q0
    constrained_config_inds target_ee_pose
  let out := solver st ⟨rbt, q0, q0, constraints⟩
  ((out.1.q_sol.getD 0 [], out.1.info), out.2)

/-! ### The shape-preserving interpolant (`PiecewisePolynomial.Pchip`)

Modelled from the spec: `Pchip` is external Drake code; the spec describes it
as interpolating the per-knot samples "into a smooth (shape-preserving,
monotonicity-respecting) trajectory".  We model it as the standard
Fritsch-Carlson PCHIP interpolant over the (uniform, since both call sites
pass `np.linspace` breaks) knot times: interior knot slopes are the weighted
harmonic mean of adjacent secants when those agree in sign and zero
otherwise, and the end slopes are zero because both call sites pass
`zero_end_point_derivatives = True`. -/

/-- Secant slope of interval `k` (between knots `k` and `k+1`), knot
spacing `h`. -/
def secant (vals : ℕ → ℚ) (h : ℚ) (k : ℕ) : ℚ := (vals (k+1) - vals k) / h

/-- Fritsch-Carlson weighted harmonic-mean slope at an interior knot, from
the two adjacent interval widths `h0, h1` and secants `d0, d1`. -/
def fcSlope (h0 h1 d0 d1 : ℚ) : ℚ :=
  if d0 * d1 > 0 then (3 * (h0 + h1)) / ((2*h1 + h0) / d0 + (h1 + 2*h0) / d1)
  else 0

/-- PCHIP knot slope for a uniform break spacing `h` over `K` knots, with
zero end-point derivatives. -/
def pchipSlope (K : ℕ) (vals : ℕ → ℚ) (h : ℚ) (k : ℕ) : ℚ :=
  if k = 0 ∨ k + 1 = K then 0
  else fcSlope h h (secant vals h (k-1)) (secant vals h k)

/-- Cubic Hermite segment with values `y0, y1` and slopes `d0, d1` at the two
ends of an interval of width `h`, evaluated at offset `τ` from the left end. -/
def hermite (y0 y1 d0 d1 h τ : ℚ) : ℚ :=
  y0 + d0*τ + ((3*(y1 - y0)/h - 2*d0 - d1)/h)*τ^2 +
    ((d0 + d1 - 2*(y1 - y0)/h)/h^2)*τ^3

/-- Index of the break segment containing `t` (clamped to the final
segment, as Drake extrapolates with the nearest segment). -/
def pchipSeg (t0 h : ℚ) (K : ℕ) (t : ℚ) : ℕ :=
  min (K - 2) (⌊(t - t0)/h⌋.toNat)

/-- Evaluate the PCHIP interpolant with uniform breaks `t0, t0+h, ...`
(`K` knots) at time `t`: pick the segment containing `t` and evaluate its
Hermite cubic. -/
def pchipEvalU (t0 h : ℚ) (K : ℕ) (vals : ℕ → ℚ) (t : ℚ) : ℚ :=
  hermite (vals (pchipSeg t0 h K t)) (vals (pchipSeg t0 h K t + 1))
    (pchipSlope K vals h (pchipSeg t0 h K t))
    (pchipSlope K vals h (pchipSeg t0 h K t + 1)) h
    (t - (t0 + (pchipSeg t0 h K t : ℚ) * h))

/-- A trajectory as returned by the planners: PCHIP over uniform breaks
starting at `t0` with spacing `h`, through `K` knot rows; `vals k j` is the
solver's value for joint `j` at knot `k`. -/
structure PchipTraj where
  t0 : ℚ
  h : ℚ
  K : ℕ
  vals : ℕ → ℕ → ℚ

/-- Sample the trajectory at time `t`, joint `j`. -/
def PchipTraj.eval (tr : PchipTraj) (t : ℚ) (j : ℕ) : ℚ :=
  pchipEvalU tr.t0 tr.h tr.K (fun k => tr.vals k j) t

/-- Modelled from the spec: the trajectory "is valid for a time span fixed at
creation" — its domain is the span of its breaks. -/
def PchipTraj.domain (tr : PchipTraj) : ℚ × ℚ :=
  (tr.t0, tr.t0 + ((tr.K : ℚ) - 1) * tr.h)

/-! ### `plan_trajectory_to_posture` (kuka_ik.py lines 67-161) -/

/-- Line 104: `q0 = np.clip(q0, rbt.joint_limit_min, rbt.joint_limit_max)`. -/
def clip_q0 (rbt : Rbt) (q0 : List ℚ) : List ℚ :=
  npClipVec q0 rbt.joint_limit_min rbt.joint_limit_max

/-- Lines 105-106: `qf` (given over the controlled subset) clipped to the
controlled-subset joint limits. -/
def clip_qf (rbt : Rbt) (qf : List ℚ) (free_config_inds : List ℕ) : List ℚ :=
  npClipVec qf (subVec rbt.joint_limit_min free_config_inds)
    (subVec rbt.joint_limit_max free_config_inds)

/-- Lines 141-142: `qf_full = q0*0.; qf_full[free_config_inds] = qf` — the
full-length target posture, zero at every non-controlled entry. -/
def qf_full (rbt : Rbt) (q0 qf : List ℚ) (free_config_inds : List ℕ) :
    List ℚ :=
  scatterInto ((clip_q0 rbt q0).map (fun _ => 0)) free_config_inds
    (clip_qf rbt qf free_config_inds)

/-- Lines 140-145: the per-knot solver seed
`q_seed[:, i] = q0*(1 - t_i/duration) + qf_full*(t_i/duration)` (with `q0`
already clipped at line 104). -/
def q_seed (rbt : Rbt) (q0 qf : List ℚ) (free_config_inds : List ℕ)
    (n_knots : ℕ) (duration : ℚ) (i j : ℕ) : ℚ :=
  let frac := (linspace 0 duration n_knots).getD i 0 / duration
  (clip_q0 rbt q0).getD j 0 * (1 - frac) +
    (qf_full rbt q0 qf free_config_inds).getD j 0 * frac

/-- Lines 112-136: the three posture constraints handed to the solver —
the non-controlled joints banded around (clipped) `q0` for the whole span,
all joints banded around `q0` at the start instant, and the controlled
joints banded around (clipped) `qf` at the final instant. -/
def posture_constraints_of (rbt : Rbt) (q0 qf : List ℚ)
    (free_config_inds constrained_config_inds : List ℕ) (duration : ℚ) :
    List IkConstraint :=
  [ .postureLimits (0, duration) constrained_config_inds
      (addConst (subVec (clip_q0 rbt q0) constrained_config_inds) (-(1/100)))
      (addConst (subVec (clip_q0 rbt q0) constrained_config_inds) (1/100)),
    .postureLimits (0, 0) free_config_inds
      (addConst (subVec (clip_q0 rbt q0) free_config_inds) (-(1/100)))
      (addConst (subVec (clip_q0 rbt q0) free_config_inds) (1/100)),
    .postureLimits (duration, duration) free_config_inds
      (addConst (subVec (clip_qf rbt qf free_config_inds) free_config_inds)
        (-(1/100)))
      (addConst (subVec (clip_qf rbt qf free_config_inds) free_config_inds)
        (1/100)) ]

/-- The `ik.InverseKinTraj` call made by `plan_trajectory_to_posture`
(lines 148-154), with zero-velocity bounds at both ends. -/
def plan_to_posture_solve (solver : TrajOracle) (rbt : Rbt) (q0 qf : List ℚ)
    (free_config_inds constrained_config_inds : List ℕ)
    (n_knots : ℕ) (duration : ℚ) : IkTrajResult :=
  let ts := linspace 0 duration n_knots
  let zero_velocity := List.replicate rbt.nv (0 : ℚ)
  solver rbt ts (q_seed rbt q0 qf free_config_inds n_knots duration)
    (fun _ => qf_full rbt q0 qf free_config_inds)
    (posture_constraints_of rbt q0 qf free_config_inds
      constrained_config_inds duration)
    ⟨zero_velocity, zero_velocity, zero_velocity, zero_velocity⟩

/-- `plan_trajectory_to_posture(rbt, q0, qf, n_knots, duration, start_time)`:
returns the PCHIP trajectory through the solver's knot rows over the
shifted knot times `linspace(0, duration, n_knots) + start_time`, together
with the solver status. -/
def plan_trajectory_to_posture (solver : TrajOracle) (rbt : Rbt)
    (q0 qf : List ℚ) (n_knots : ℕ) (duration start_time : ℚ)
    (free_config_inds constrained_config_inds : List ℕ) : PchipTraj × ℤ :=
  let results := plan_to_posture_solve solver rbt q0 qf free_config_inds
    constrained_config_inds n_knots duration
  (⟨start_time, duration / ((n_knots : ℚ) - 1), n_knots,
    fun k j => (results.q_sol.getD k []).getD j 0⟩, results.info)

/-! ### `plan_ee_trajectory` (kuka_ik.py lines 164-255) -/

/-- Line 185: `reach_start_index = np.argmax(ts >= reach_time) - 1`. -/
def reach_start_index (ts : List ℚ) (reach_time : ℚ) : ℤ :=
  (np_argmax_ge ts reach_time : ℤ) - 1

/-- Line 224: the per-knot interpolation factor
`float(i - reach_start_index) / (n_knots - reach_start_index)`. -/
def interp_factor (n_knots : ℕ) (rsi i : ℤ) : ℚ :=
  ((i : ℚ) - (rsi : ℚ)) / ((n_knots : ℚ) - (rsi : ℚ))

/-- Line 225: `(1 - interp)*target_reach_pose + interp*target_grasp_pose`. -/
def ee_knot_target (target_reach_pose target_grasp_pose : List ℚ) (f : ℚ) :
    List ℚ :=
  List.zipWith (fun r g => (1 - f)*r + f*g)
    target_reach_pose target_grasp_pose

/-- Lines 222-237: the per-knot end-effector box constraints, position band
±0.01 and Euler band ±0.05, for knots `reach_start_index .. n_knots-1`. -/
def ee_ramp_constraints (ts : List ℚ)
    (target_reach_pose target_grasp_pose : List ℚ)
    (n_knots : ℕ) (rsi : ℤ) : List IkConstraint :=
  (intRange rsi (n_knots : ℤ)).flatMap (fun i =>
    let tk := pyGetD ts i 0
    let target := ee_knot_target target_reach_pose target_grasp_pose
      (interp_factor n_knots rsi i)
    [ .worldPosition (tk, tk)
        (addConst (target.take 3) (-(1/100)))
        (addConst (target.take 3) (1/100)),
      .worldEuler (tk, tk)
        (addConst ((target.drop 3).take 3) (-(1/20)))
        (addConst ((target.drop 3).take 3) (1/20)) ])

/-- The full constraint set assembled by `plan_ee_trajectory`
(lines 199-237). -/
def ee_trajectory_constraints (q0 : List ℚ)
    (free_config_inds constrained_config_inds : List ℕ)
    (target_reach_pose target_grasp_pose : List ℚ)
    (n_knots : ℕ) (reach_time grasp_time : ℚ) : List IkConstraint :=
  let ts := linspace 0 grasp_time n_knots
  let rsi := reach_start_index ts reach_time
  [ .postureLimits (0, grasp_time) constrained_config_inds
      (addConst (subVec q0 constrained_config_inds) (-(1/100)))
      (addConst (subVec q0 constrained_config_inds) (1/100)),
    .postureLimits (0, 0) free_config_inds
      (addConst (subVec q0 free_config_inds) (-(1/100)))
      (addConst (subVec q0 free_config_inds) (1/100)) ] ++
  ee_ramp_constraints ts target_reach_pose target_grasp_pose n_knots rsi

/-- `plan_ee_trajectory(rbt, q0, reach_pose, grasp_pose, n_knots,
reach_time, grasp_time)`: seed and nominal are `q0` tiled across the knots;
the result is the PCHIP trajectory through the solver's knot rows. -/
def plan_ee_trajectory (solver : TrajOracle) (rbt : Rbt) (q0 : List ℚ)
    (target_reach_pose target_grasp_pose : List ℚ) (n_knots : ℕ)
    (reach_time grasp_time : ℚ)
    (free_config_inds constrained_config_inds : List ℕ) : PchipTraj × ℤ :=
  let ts := linspace 0 grasp_time n_knots
  let zero_velocity := List.replicate rbt.nv (0 : ℚ)
  let results := solver rbt ts (fun _ j => q0.getD j 0) (fun _ => q0)
    (ee_trajectory_constraints q0 free_config_inds constrained_config_inds
      target_reach_pose target_grasp_pose n_knots reach_time grasp_time)
    ⟨zero_velocity, zero_velocity, zero_velocity, zero_velocity⟩
  (⟨0, grasp_time / ((n_knots : ℚ) - 1), n_knots,
    fun k j => (results.q_sol.getD k []).getD j 0⟩, results.info)

/-! ### The cut-event orchestrator (kuka_cutting_sim.py lines 67-237)

The physics engine is external.  Each `simulator.StepTo(args.duration)` call
is modelled by one `StepToResult` supplied by the environment: either the
duration target was reached, a `CutException` was raised at some time with
some captured state, a `StopIteration` ended the run, or a `RuntimeError`
(non-finite state) ended it.  Modelled from the spec: the recorded segment's
time span (obtained in the source from the 60 Hz `SignalLogger` samples,
first repeated knot discarded) is taken to be
`[iteration start time, stop time]`. -/

/-- The payload of `cutting_utils.CutException`. -/
structure CutEvent where
  cut_body_index : ℕ
  cut_pt : List ℚ
  cut_normal : List ℚ
deriving DecidableEq

/-- Outcome of one `simulator.StepTo(args.duration)` call, as observed by the
orchestrator loop: `tEnd`/`xAtEnd` are the context time and continuous state
when control returns to the loop. -/
inductive StepToResult where
  | completed
  | cutException (tCut : ℚ) (xAtCut : List ℚ) (e : CutEvent)
  | stopIteration (tStop : ℚ)
  | runtimeError (tErr : ℚ)

/-- The external `world_builder.do_cut` collaborator: from the current model,
current state and cut data, produce the new model and the remapped state. -/
def DoCutOracle : Type := Rbt → List ℚ → CutEvent → Rbt × List ℚ

/-- One recorded entry of `sim_slices`: the model valid for the segment and
the time span of its logged state trajectory. -/
structure SimSlice where
  rbt : Rbt
  spanStart : ℚ
  spanEnd : ℚ

/-- The orchestrator's mutable loop variables (lines 72-79): current sim
time `t`, current state `x`, current model `rbt`, and the replay buffer. -/
structure OrchState where
  t : ℚ
  x : List ℚ
  rbt : Rbt
  sim_slices : List SimSlice

/-- The distinguishable steps of the `CutException` handler plus the
post-`try` bookkeeping (lines 205-237), used to state ordering claims. -/
inductive OrchAction where
  | captureTime
  | captureState
  | invokeDoCut
  | appendSegment
  | adoptNewModel
deriving DecidableEq

/-- The `CutException` handler together with the `sim_slices.append` and
`rbt = rbt_new` bookkeeping that follows the `try` block, in source order
(lines 212-235): `t = context.get_time()`; `x = state[0:x.shape[0]]`;
`rbt_new, x = do_cut(...)`; `sim_slices.append((rbt, <elapsed span>))`;
`rbt = rbt_new`.  Returns the new loop state and the ordered action trace. -/
def handleCut (do_cut : DoCutOracle) (s : OrchState) (tCut : ℚ)
    (xAtCut : List ℚ) (e : CutEvent) : OrchState × List OrchAction :=
  let t1 := tCut
  let xcap := xAtCut.take s.x.length
  let cut_out := do_cut s.rbt xcap e
  let slices1 := s.sim_slices ++ [⟨s.rbt, s.t, t1⟩]
  (⟨t1, cut_out.2, cut_out.1, slices1⟩,
   [.captureTime, .captureState, .invokeDoCut, .appendSegment,
    .adoptNewModel])

/-- The `while 1` loop of `__main__` (lines 81-237), driven by the list of
`StepTo` outcomes the environment produces, one per iteration.  On
`completed`, `StopIteration` or `RuntimeError` the segment for the elapsed
span is appended and the loop breaks (`rbt_new` is `None`); on a
`CutException` the handler runs and the loop continues with the new
model/state. -/
def runLoop (do_cut : DoCutOracle) (duration : ℚ) :
    OrchState → List StepToResult → OrchState
  | s, [] => s
  | s, .completed :: _ =>
    { s with sim_slices := s.sim_slices ++ [⟨s.rbt, s.t, duration⟩] }
  | s, .stopIteration tStop :: _ =>
    { s with sim_slices := s.sim_slices ++ [⟨s.rbt, s.t, tStop⟩] }
  | s, .runtimeError tErr :: _ =>
    { s with sim_slices := s.sim_slices ++ [⟨s.rbt, s.t, tErr⟩] }
  | s, .cutException tCut xAtCut e :: rest =>
    runLoop do_cut duration (handleCut do_cut s tCut xAtCut e).1 rest

/-- Initial loop state (lines 70-79): `t = 0`, buffer empty. -/
def initialOrchState (rbt0 : Rbt) (x0 : List ℚ) : OrchState :=
  ⟨0, x0, rbt0, []⟩

/-- The time spans of the recorded segments. -/
def slicesSpans (l : List SimSlice) : List (ℚ × ℚ) :=
  l.map (fun sl => (sl.spanStart, sl.spanEnd))

/-- The simulation time at which the run ends, given the environment's
outcome trace: the duration target on normal completion, the stop time on an
early termination. -/
def finalTimeOfTrace (duration : ℚ) : ℚ → List StepToResult → ℚ
  | t, [] => t
  | _, .completed :: _ => duration
  | _, .stopIteration tStop :: _ => tStop
  | _, .runtimeError tErr :: _ => tErr
  | _, .cutException tCut _ _ :: rest => finalTimeOfTrace duration tCut rest

/-- Well-formedness of an environment trace starting at time `t`: the
simulator only stops at times in `[t, duration]`, in particular it never
runs past the duration target, and the trace ends with a terminal outcome. -/
inductive WFTrace (duration : ℚ) : ℚ → List StepToResult → Prop where
  | completed (t : ℚ) (h : t ≤ duration) : WFTrace duration t [.completed]
  | stopped (t tStop : ℚ) (h1 : t ≤ tStop) (h2 : tStop ≤ duration) :
      WFTrace duration t [.stopIteration tStop]
  | diverged (t tErr : ℚ) (h1 : t ≤ tErr) (h2 : tErr ≤ duration) :
      WFTrace duration t [.runtimeError tErr]
  | cut (t tCut : ℚ) (xAtCut : List ℚ) (e : CutEvent)
      (rest : List StepToResult) (h1 : t ≤ tCut) (h2 : tCut ≤ duration)
      (hrest : WFTrace duration tCut rest) :
      WFTrace duration t (.cutException tCut xAtCut e :: rest)

/-- A list of spans tiles the interval from `a` to `c` exactly: each span
starts where the previous one ended, spans are ordered, and the whole list
is nonempty. -/
inductive Covers : ℚ → List (ℚ × ℚ) → ℚ → Prop where
  | single (a b : ℚ) (h : a ≤ b) : Covers a [(a, b)] b
  | cons (a b c : ℚ) (l : List (ℚ × ℚ)) (h : a ≤ b)
      (hrest : Covers b l c) : Covers a ((a, b) :: l) c

/-- The set of instants covered by a list of closed spans. -/
def spanUnion (l : List (ℚ × ℚ)) : Set ℚ :=
  {x | ∃ p ∈ l, p.1 ≤ x ∧ x ≤ p.2}

/-- Index of the first occurrence of an action in a trace. -/
def actionIdx (tr : List OrchAction) (a : OrchAction) : ℕ :=
  findIdxAux (fun b => decide (b = a)) tr

/-! ## Theorems -/

/-- C9: the output of `plan_ee_configuration` is independent of its `qseed`
argument, because the solve is invoked with `q0` as both seed and nominal
posture (kuka_ik.py line 62). -/
theorem plan_ee_configuration_independent_of_qseed (solver : IkOracle)
    (rbt : Rbt) (q0 qs1 qs2 target_ee_pose : List ℚ)
    (constrained_config_inds : List ℕ) :
    plan_ee_configuration solver rbt q0 qs1 target_ee_pose
      constrained_config_inds =
    plan_ee_configuration solver rbt q0 qs2 target_ee_pose
      constrained_config_inds := rfl

/-- C7: calling `plan_ee_configuration` twice with identical inputs yields
the identical posture and status, provided the external solver's answer does
not depend on its hidden state (determinism). -/
theorem plan_ee_configuration_deterministic {σ : Type}
    (solver : StatefulIkOracle σ) (st : σ) (rbt : Rbt)
    (q0 qseed target_ee_pose : List ℚ) (constrained_config_inds : List ℕ)
    (hdet : ∀ s1 s2 c, (solver s1 c).1 = (solver s2 c).1) :
    (plan_ee_configuration_stateful solver
      (plan_ee_configuration_stateful solver st rbt q0 qseed target_ee_pose
        constrained_config_inds).2
      rbt q0 qseed target_ee_pose constrained_config_inds).1 =
    (plan_ee_configuration_stateful solver st rbt q0 qseed target_ee_pose
      constrained_config_inds).1 :=
  congrArg (fun r => (r.q_sol.getD 0 [], r.info)) (hdet _ _ _)

/-- Witness for C7 at a concrete stateful solver (a call counter) and
concrete inputs. -/
theorem plan_ee_configuration_deterministic_witness :
    (plan_ee_configuration_stateful
      (fun (s : ℕ) (_ : SolveCall) => (⟨[[1]], 1⟩, s + 1))
      (plan_ee_configuration_stateful
        (fun (s : ℕ) (_ : SolveCall) => (⟨[[1]], 1⟩, s + 1))
        0 ⟨1, 1, [-10], [10]⟩ [0] [5] [0, 0, 0, 0, 0, 0] []).2
      ⟨1, 1, [-10], [10]⟩ [0] [5] [0, 0, 0, 0, 0, 0] []).1 =
    (plan_ee_configuration_stateful
      (fun (s : ℕ) (_ : SolveCall) => (⟨[[1]], 1⟩, s + 1))
      0 ⟨1, 1, [-10], [10]⟩ [0] [5] [0, 0, 0, 0, 0, 0] []).1 :=
  plan_ee_configuration_deterministic _ 0 _ [0] [5] [0, 0, 0, 0, 0, 0] []
    (fun _ _ _ => rfl)

/-- C4 counterexample: the claimed step order of the cut handler — capture
time, capture state, append the segment, then invoke `do_cut` — does not
match the code: at this concrete input the handler trace places
`invokeDoCut` before `appendSegment` (kuka_cutting_sim.py performs `do_cut`
at line 217, inside the `except` block, and appends the segment only at
line 226, after the `try` statement). -/
theorem cut_handler_claimed_order_false :
    ¬ (actionIdx (handleCut (fun r x _ => (r, x))
        ⟨0, [0], ⟨1, 1, [0], [0]⟩, []⟩ 1 [1] ⟨0, [], []⟩).2
          OrchAction.captureTime <
       actionIdx (handleCut (fun r x _ => (r, x))
        ⟨0, [0], ⟨1, 1, [0], [0]⟩, []⟩ 1 [1] ⟨0, [], []⟩).2
          OrchAction.captureState ∧
       actionIdx (handleCut (fun r x _ => (r, x))
        ⟨0, [0], ⟨1, 1, [0], [0]⟩, []⟩ 1 [1] ⟨0, [], []⟩).2
          OrchAction.captureState <
       actionIdx (handleCut (fun r x _ => (r, x))
        ⟨0, [0], ⟨1, 1, [0], [0]⟩, []⟩ 1 [1] ⟨0, [], []⟩).2
          OrchAction.appendSegment ∧
       actionIdx (handleCut (fun r x _ => (r, x))
        ⟨0, [0], ⟨1, 1, [0], [0]⟩, []⟩ 1 [1] ⟨0, [], []⟩).2
          OrchAction.appendSegment <
       actionIdx (handleCut (fun r x _ => (r, x))
        ⟨0, [0], ⟨1, 1, [0], [0]⟩, []⟩ 1 [1] ⟨0, [], []⟩).2
          OrchAction.invokeDoCut) := by
  decide

/-- C4 (amended): when the orchestrator handles a cut interrupt it captures
the interrupt time into `t` and the truncated `StateVector`, invokes
`do_cut` to obtain the new model and remapped state, **then** appends the
`SimulationSegment` for the elapsed span (recorded against the pre-cut
model), adopts the new model/state, and the loop continues from them. -/
theorem cut_handler_actual_order (do_cut : DoCutOracle) (s : OrchState)
    (tCut : ℚ) (xAtCut : List ℚ) (e : CutEvent) (duration : ℚ)
    (rest : List StepToResult) :
    (handleCut do_cut s tCut xAtCut e).2 =
      [OrchAction.captureTime, OrchAction.captureState,
       OrchAction.invokeDoCut, OrchAction.appendSegment,
       OrchAction.adoptNewModel] ∧
    (handleCut do_cut s tCut xAtCut e).1.t = tCut ∧
    (handleCut do_cut s tCut xAtCut e).1.rbt =
      (do_cut s.rbt (xAtCut.take s.x.length) e).1 ∧
    (handleCut do_cut s tCut xAtCut e).1.x =
      (do_cut s.rbt (xAtCut.take s.x.length) e).2 ∧
    (handleCut do_cut s tCut xAtCut e).1.sim_slices =
      s.sim_slices ++ [⟨s.rbt, s.t, tCut⟩] ∧
    runLoop do_cut duration s (.cutException tCut xAtCut e :: rest) =
      runLoop do_cut duration (handleCut do_cut s tCut xAtCut e).1 rest :=
  ⟨rfl, rfl, rfl, rfl, rfl, rfl⟩

/-! ### Orchestrator coverage (C1, C8) -/

theorem covers_le {a c : ℚ} {l : List (ℚ × ℚ)} (h : Covers a l c) : a ≤ c := by
  induction h with
  | single a b hab => exact hab
  | cons a b c l hab hrest ih => exact le_trans hab ih

theorem covers_mem_start {a c : ℚ} {l : List (ℚ × ℚ)} (h : Covers a l c) :
    ∀ p ∈ l, a ≤ p.1 := by
  induction h with
  | single a b hab =>
    intro p hp
    rw [List.mem_singleton] at hp
    subst hp
    exact le_refl a
  | cons a b c l hab hrest ih =>
    intro p hp
    rcases List.mem_cons.1 hp with h' | h'
    · subst h'; exact le_refl a
    · exact le_trans hab (ih p h')

theorem covers_pairwise {a c : ℚ} {l : List (ℚ × ℚ)} (h : Covers a l c) :
    l.Pairwise (fun p q => p.2 ≤ q.1) := by
  induction h with
  | single a b hab => exact List.pairwise_singleton _ _
  | cons a b c l hab hrest ih =>
    exact List.Pairwise.cons (fun q hq => covers_mem_start hrest q hq) ih

theorem covers_spanUnion {a c : ℚ} {l : List (ℚ × ℚ)} (h : Covers a l c) :
    spanUnion l = Set.Icc a c := by
  induction h with
  | single a b hab =>
    ext x
    simp [spanUnion, Set.mem_Icc]
  | cons a b c l hab hrest ih =>
    have hbc := covers_le hrest
    have hsplit : spanUnion ((a, b) :: l) = Set.Icc a b ∪ spanUnion l := by
      ext x
      constructor
      · rintro ⟨p, hp, hx1, hx2⟩
        rcases List.mem_cons.1 hp with h' | h'
        · subst h'; exact Or.inl (Set.mem_Icc.2 ⟨hx1, hx2⟩)
        · exact Or.inr ⟨p, h', hx1, hx2⟩
      · rintro (hx | ⟨p, hp, hx1, hx2⟩)
        · exact ⟨(a, b), List.mem_cons_self _ _, (Set.mem_Icc.1 hx).1,
            (Set.mem_Icc.1 hx).2⟩
        · exact ⟨p, List.mem_cons_of_mem _ hp, hx1, hx2⟩
    rw [hsplit, ih, Set.Icc_union_Icc_eq_Icc hab hbc]

theorem runLoop_slices_cover (do_cut : DoCutOracle) (duration : ℚ)
    {t : ℚ} {tr : List StepToResult} (hwf : WFTrace duration t tr) :
    ∀ s : OrchState, s.t = t →
    ∃ ds : List SimSlice,
      (runLoop do_cut duration s tr).sim_slices = s.sim_slices ++ ds ∧
      Covers t (slicesSpans ds) (finalTimeOfTrace duration t tr) := by
  induction hwf with
  | completed t h =>
    intro s hs
    refine ⟨[⟨s.rbt, s.t, duration⟩], rfl, ?_⟩
    simp only [slicesSpans, List.map_cons, List.map_nil, finalTimeOfTrace]
    rw [hs]
    exact Covers.single t duration h
  | stopped t tStop h1 h2 =>
    intro s hs
    refine ⟨[⟨s.rbt, s.t, tStop⟩], rfl, ?_⟩
    simp only [slicesSpans, List.map_cons, List.map_nil, finalTimeOfTrace]
    rw [hs]
    exact Covers.single t tStop h1
  | diverged t tErr h1 h2 =>
    intro s hs
    refine ⟨[⟨s.rbt, s.t, tErr⟩], rfl, ?_⟩
    simp only [slicesSpans, List.map_cons, List.map_nil, finalTimeOfTrace]
    rw [hs]
    exact Covers.single t tErr h1
  | cut t tCut xc e rest h1 h2 hrest ih =>
    intro s hs
    obtain ⟨ds, hds, hcov⟩ := ih (handleCut do_cut s tCut xc e).1 rfl
    refine ⟨⟨s.rbt, s.t, tCut⟩ :: ds, ?_, ?_⟩
    · show (runLoop do_cut duration (handleCut do_cut s tCut xc e).1
        rest).sim_slices = _
      rw [hds]
      show (s.sim_slices ++ [⟨s.rbt, s.t, tCut⟩]) ++ ds =
        s.sim_slices ++ (⟨s.rbt, s.t, tCut⟩ :: ds)
      simp
    · simp only [slicesSpans, List.map_cons, finalTimeOfTrace]
      rw [hs]
      exact Covers.cons t tCut _ _ h1 hcov

/-- C1: for every run of the orchestrator loop against a well-formed
environment trace, the time spans of the recorded `sim_slices` (one per loop
iteration) tile `[0, finalTime]`: they chain contiguously starting at `0`
and ending at the final time, their union is exactly `Set.Icc 0 finalTime`,
and they are pairwise non-overlapping (ordered, touching at most at
endpoints). -/
theorem sim_slices_spans_cover (do_cut : DoCutOracle) (duration : ℚ)
    (rbt0 : Rbt) (x0 : List ℚ) (tr : List StepToResult)
    (hwf : WFTrace duration 0 tr) :
    Covers 0
      (slicesSpans (runLoop do_cut duration (initialOrchState rbt0 x0)
        tr).sim_slices)
      (finalTimeOfTrace duration 0 tr) ∧
    spanUnion (slicesSpans (runLoop do_cut duration
        (initialOrchState rbt0 x0) tr).sim_slices) =
      Set.Icc 0 (finalTimeOfTrace duration 0 tr) ∧
    (slicesSpans (runLoop do_cut duration (initialOrchState rbt0 x0)
        tr).sim_slices).Pairwise (fun p q => p.2 ≤ q.1) := by
  obtain ⟨ds, hds, hcov⟩ :=
    runLoop_slices_cover do_cut duration hwf (initialOrchState rbt0 x0) rfl
  have he : (runLoop do_cut duration (initialOrchState rbt0 x0)
      tr).sim_slices = ds := by
    simpa [initialOrchState] using hds
  rw [he]
  exact ⟨hcov, covers_spanUnion hcov, covers_pairwise hcov⟩

/-- Witness for C1: a run with one cut at time 1 and normal completion at
duration 2 records spans `[(0,1), (1,2)]` tiling `[0, 2]`. -/
theorem sim_slices_spans_cover_witness :
    Covers 0
      (slicesSpans (runLoop (fun r x _ => (r, x)) 2
        (initialOrchState ⟨1, 1, [0], [0]⟩ [0])
        [.cutException 1 [0] ⟨0, [], []⟩, .completed]).sim_slices)
      (finalTimeOfTrace 2 0 [.cutException 1 [0] ⟨0, [], []⟩, .completed]) ∧
    spanUnion (slicesSpans (runLoop (fun r x _ => (r, x)) 2
        (initialOrchState ⟨1, 1, [0], [0]⟩ [0])
        [.cutException 1 [0] ⟨0, [], []⟩, .completed]).sim_slices) =
      Set.Icc 0
        (finalTimeOfTrace 2 0 [.cutException 1 [0] ⟨0, [], []⟩,
          .completed]) ∧
    (slicesSpans (runLoop (fun r x _ => (r, x)) 2
        (initialOrchState ⟨1, 1, [0], [0]⟩ [0])
        [.cutException 1 [0] ⟨0, [], []⟩, .completed]).sim_slices).Pairwise
      (fun p q => p.2 ≤ q.1) :=
  sim_slices_spans_cover (fun r x _ => (r, x)) 2 ⟨1, 1, [0], [0]⟩ [0]
    [.cutException 1 [0] ⟨0, [], []⟩, .completed]
    (WFTrace.cut 0 1 [0] ⟨0, [], []⟩ [.completed] (by norm_num)
      (by norm_num) (WFTrace.completed 1 (by norm_num)))

/-- C8: when a `RuntimeError` (numerical divergence) ends an iteration after
any prefix of cut iterations, the loop stops (everything after the error in
the environment trace is ignored) and the replay buffer holds exactly all
previously recorded segments plus the segment for the elapsed span ending at
the error time. -/
theorem runtime_error_partial_history (do_cut : DoCutOracle) (duration : ℚ)
    (pre : List StepToResult) (tErr : ℚ) (rest : List StepToResult) :
    ∀ s : OrchState,
    (∀ r ∈ pre, ∃ tc xc e, r = StepToResult.cutException tc xc e) →
    (runLoop do_cut duration s
        (pre ++ StepToResult.runtimeError tErr :: rest)).sim_slices =
      (runLoop do_cut duration s pre).sim_slices ++
        [⟨(runLoop do_cut duration s pre).rbt,
          (runLoop do_cut duration s pre).t, tErr⟩] := by
  induction pre with
  | nil => intro s _; rfl
  | cons r pre ih =>
    intro s hpre
    obtain ⟨tc, xc, e, rfl⟩ := hpre r (List.mem_cons_self r pre)
    exact ih (handleCut do_cut s tc xc e).1
      (fun r hr => hpre r (List.mem_cons_of_mem _ hr))

/-- Witness for C8: one cut at time 1, then a `RuntimeError` at time 3/2. -/
theorem runtime_error_partial_history_witness :
    (runLoop (fun r x _ => (r, x)) 2 (initialOrchState ⟨1, 1, [0], [0]⟩ [0])
        ([StepToResult.cutException 1 [0] ⟨0, [], []⟩] ++
          StepToResult.runtimeError (3/2) :: [])).sim_slices =
      (runLoop (fun r x _ => (r, x)) 2
          (initialOrchState ⟨1, 1, [0], [0]⟩ [0])
          [StepToResult.cutException 1 [0] ⟨0, [], []⟩]).sim_slices ++
        [⟨(runLoop (fun r x _ => (r, x)) 2
            (initialOrchState ⟨1, 1, [0], [0]⟩ [0])
            [StepToResult.cutException 1 [0] ⟨0, [], []⟩]).rbt,
          (runLoop (fun r x _ => (r, x)) 2
            (initialOrchState ⟨1, 1, [0], [0]⟩ [0])
            [StepToResult.cutException 1 [0] ⟨0, [], []⟩]).t, 3/2⟩] :=
  runtime_error_partial_history (fun r x _ => (r, x)) 2
    [StepToResult.cutException 1 [0] ⟨0, [], []⟩] (3/2) []
    (initialOrchState ⟨1, 1, [0], [0]⟩ [0])
    (by
      intro r hr
      rw [List.mem_singleton] at hr
      exact ⟨1, [0], ⟨0, [], []⟩, hr⟩)

/-! ### List access helpers -/

theorem subVec_length (v : List ℚ) (inds : List ℕ) :
    (subVec v inds).length = inds.length := List.length_map _ _

theorem addConst_length (v : List ℚ) (c : ℚ) :
    (addConst v c).length = v.length := List.length_map _ _

theorem addConst_getD (v : List ℚ) (c : ℚ) (m : ℕ) (hm : m < v.length) :
    (addConst v c).getD m 0 = v.getD m 0 + c := by
  unfold addConst
  rw [List.getD_eq_getElem?_getD, List.getElem?_map,
    List.getElem?_eq_getElem hm, List.getD_eq_getElem?_getD,
    List.getElem?_eq_getElem hm]
  rfl

theorem subVec_getD (v : List ℚ) (inds : List ℕ) (m : ℕ)
    (hm : m < inds.length) :
    (subVec v inds).getD m 0 = v.getD (inds.getD m 0) 0 := by
  unfold subVec
  rw [List.getD_eq_getElem?_getD, List.getElem?_map,
    List.getElem?_eq_getElem hm, List.getD_eq_getElem inds 0 hm]
  rfl

theorem map_const_getD (l : List ℚ) (j : ℕ) :
    (l.map (fun _ => (0:ℚ))).getD j 0 = 0 := by
  rw [List.getD_eq_getElem?_getD, List.getElem?_map]
  cases l[j]? <;> rfl

theorem scatterInto_not_mem (j : ℕ) (d : ℚ) :
    ∀ (inds : List ℕ) (vals base : List ℚ), j ∉ inds →
    (scatterInto base inds vals).getD j d = base.getD j d := by
  intro inds
  induction inds with
  | nil => intro vals base _; rw [scatterInto]
  | cons i is ih =>
    intro vals base h
    cases vals with
    | nil => rw [scatterInto]
    | cons v vs =>
      have hij : i ≠ j := fun he => h (he ▸ List.mem_cons_self i is)
      rw [scatterInto, ih vs _ (fun hm => h (List.mem_cons_of_mem _ hm))]
      rw [List.getD_eq_getElem?_getD, List.getElem?_set_ne hij,
        ← List.getD_eq_getElem?_getD]

theorem linspace_getD (a b : ℚ) (n i : ℕ) (hn : 2 ≤ n) (hi : i < n) :
    (linspace a b n).getD i 0 = a + (b - a) * i / ((n:ℚ) - 1) := by
  unfold linspace
  rw [if_neg (by omega), List.getD_eq_getElem?_getD, List.getElem?_map,
    List.getElem?_range hi]
  rfl

theorem qf_full_held (rbt : Rbt) (q0 qf : List ℚ)
    (free_config_inds : List ℕ) (j : ℕ) (hj : j ∉ free_config_inds) :
    (qf_full rbt q0 qf free_config_inds).getD j 0 = 0 := by
  unfold qf_full
  rw [scatterInto_not_mem j 0 free_config_inds _ _ hj, map_const_getD]

/-! ### C2: the solver seed of `plan_trajectory_to_posture` -/

/-- C2 counterexample: held joints are not frozen at their `q0` value in the
seed.  With `q0 = [0, 1]`, controlled subset `{0}` (so joint `1` belongs to
the held subset: it is not among the free/controlled indices),
`n_knots = 2`, `duration = 1`, the seed at the final knot sets held joint 1
to `0`, not to its `q0` value `1` (because `qf_full = q0*0` puts zeros, not
`q0`, at the held entries, kuka_ik.py lines 141-145). -/
theorem q_seed_held_not_frozen :
    (1 : ℕ) ∉ ([0] : List ℕ) ∧
    q_seed ⟨2, 2, [-10, -10], [10, 10]⟩ [0, 1] [0] [0] 2 1 1 1 ≠
      List.getD [0, 1] 1 (0:ℚ) := by
  refine ⟨by decide, ?_⟩
  have hts : (linspace 0 1 2).getD 1 0 = 1 := by
    rw [linspace_getD 0 1 2 1 (by norm_num) (by norm_num)]
    norm_num
  have hq0c : (clip_q0 ⟨2, 2, [-10, -10], [10, 10]⟩ [0, 1]).getD 1 0 = 1 := by
    simp [clip_q0, npClipVec, npClip]
    norm_num [min_def, max_def]
  have hqf : (qf_full ⟨2, 2, [-10, -10], [10, 10]⟩ [0, 1] [0] [0]).getD
      1 0 = 0 :=
    qf_full_held _ _ _ _ 1 (by decide)
  unfold q_seed
  rw [hts, hq0c, hqf]
  norm_num

/-- C2 (amended): at every knot `i` the seed is, at every joint `j`, the
joint-space linear interpolation between the clipped `q0` and the full
target posture `qf_full` with factor `i/(n_knots-1)`; `qf_full` carries
zero (not the `q0` value) at every held-subset entry, so each held joint
reads `clip(q0)[j] * (1 - i/(n_knots-1))` — it decays linearly from its
(clipped) initial value toward zero rather than staying frozen at `q0`. -/
theorem q_seed_held_linear (rbt : Rbt) (q0 qf : List ℚ)
    (free_config_inds : List ℕ) (n_knots : ℕ) (duration : ℚ) (i : ℕ)
    (hn : 2 ≤ n_knots) (hi : i < n_knots) (hD : duration ≠ 0) :
    (∀ j, q_seed rbt q0 qf free_config_inds n_knots duration i j =
      (clip_q0 rbt q0).getD j 0 * (1 - (i:ℚ)/((n_knots:ℚ) - 1)) +
        (qf_full rbt q0 qf free_config_inds).getD j 0 *
          ((i:ℚ)/((n_knots:ℚ) - 1))) ∧
    (∀ j, j ∉ free_config_inds →
      (qf_full rbt q0 qf free_config_inds).getD j 0 = 0 ∧
      q_seed rbt q0 qf free_config_inds n_knots duration i j =
        (clip_q0 rbt q0).getD j 0 * (1 - (i:ℚ)/((n_knots:ℚ) - 1))) := by
  have hfrac : (linspace 0 duration n_knots).getD i 0 / duration =
      (i:ℚ)/((n_knots:ℚ) - 1) := by
    rw [linspace_getD 0 duration n_knots i hn hi, zero_add, sub_zero,
      mul_div_assoc, mul_div_cancel_left₀ _ hD]
  constructor
  · intro j
    unfold q_seed
    rw [hfrac]
  · intro j hj
    have hz := qf_full_held rbt q0 qf free_config_inds j hj
    refine ⟨hz, ?_⟩
    unfold q_seed
    rw [hfrac, hz]
    ring

/-- Witness for C2 (amended) at the counterexample's input (final knot of
two, duration 1). -/
theorem q_seed_held_linear_witness :
    (∀ j, q_seed ⟨2, 2, [-10, -10], [10, 10]⟩ [0, 1] [0] [0] 2 1 1 j =
      (clip_q0 ⟨2, 2, [-10, -10], [10, 10]⟩ [0, 1]).getD j 0 *
        (1 - (1:ℚ)/((2:ℚ) - 1)) +
        (qf_full ⟨2, 2, [-10, -10], [10, 10]⟩ [0, 1] [0] [0]).getD j 0 *
          ((1:ℚ)/((2:ℚ) - 1))) ∧
    (∀ j, j ∉ ([0] : List ℕ) →
      (qf_full ⟨2, 2, [-10, -10], [10, 10]⟩ [0, 1] [0] [0]).getD j 0 = 0 ∧
      q_seed ⟨2, 2, [-10, -10], [10, 10]⟩ [0, 1] [0] [0] 2 1 1 j =
        (clip_q0 ⟨2, 2, [-10, -10], [10, 10]⟩ [0, 1]).getD j 0 *
          (1 - (1:ℚ)/((2:ℚ) - 1))) :=
  q_seed_held_linear ⟨2, 2, [-10, -10], [10, 10]⟩ [0, 1] [0] [0] 2 1 1
    (by decide) (by decide) (by norm_num)

/-! ### C6: knot times and trajectory domain -/

/-- C6: with `2 ≤ n_knots`, the knot times are `n_knots` evenly spaced
samples `i*duration/(n_knots-1)` over `[0, duration]`, and the returned
trajectory's domain is exactly `[start_time, start_time + duration]`. -/
theorem plan_to_posture_knots_and_domain (solver : TrajOracle) (rbt : Rbt)
    (q0 qf : List ℚ) (n_knots : ℕ) (duration start_time : ℚ)
    (free_config_inds constrained_config_inds : List ℕ)
    (hn : 2 ≤ n_knots) :
    (∀ i, i < n_knots → (linspace 0 duration n_knots).getD i 0 =
      (i:ℚ) * duration / ((n_knots:ℚ) - 1)) ∧
    (plan_trajectory_to_posture solver rbt q0 qf n_knots duration start_time
      free_config_inds constrained_config_inds).1.domain =
      (start_time, start_time + duration) := by
  have hc : ((n_knots:ℚ) - 1) ≠ 0 := by
    have : (2:ℚ) ≤ (n_knots:ℚ) := by exact_mod_cast hn
    linarith
  constructor
  · intro i hi
    rw [linspace_getD 0 duration n_knots i hn hi]
    ring
  · show (start_time,
      start_time + ((n_knots:ℚ) - 1) * (duration / ((n_knots:ℚ) - 1))) =
      (start_time, start_time + duration)
    rw [← mul_div_assoc, mul_div_cancel_left₀ _ hc]

/-- Witness for C6 with three knots, duration 2 and start time 5. -/
theorem plan_to_posture_knots_and_domain_witness :
    (∀ i, i < 3 → (linspace 0 2 3).getD i 0 = (i:ℚ) * 2 / ((3:ℚ) - 1)) ∧
    (plan_trajectory_to_posture (fun _ _ _ _ _ _ => ⟨[], 1⟩)
      ⟨1, 1, [0], [0]⟩ [0] [] 3 2 5 [] []).1.domain = (5, 5 + 2) :=
  plan_to_posture_knots_and_domain (fun _ _ _ _ _ _ => ⟨[], 1⟩)
    ⟨1, 1, [0], [0]⟩ [0] [] 3 2 5 [] [] (by decide)

/-! ### C10: input clipping in `plan_trajectory_to_posture` -/

theorem npClip_idem (x lo hi : ℚ) :
    npClip (npClip x lo hi) lo hi = npClip x lo hi := by
  unfold npClip
  rcases le_total lo hi with h | h
  · have hy_lo : lo ≤ min (max x lo) hi :=
      le_min (le_max_right x lo) h
    rw [max_eq_left hy_lo, min_eq_left (min_le_right (max x lo) hi)]
  · have hy : min (max x lo) hi = hi :=
      min_eq_right (le_trans h (le_max_right x lo))
    rw [hy, max_eq_right h, min_eq_right h]

theorem npClipVec_idem (v lo hi : List ℚ) :
    npClipVec (npClipVec v lo hi) lo hi = npClipVec v lo hi := by
  unfold npClipVec
  generalize lo.zip hi = z
  induction v generalizing z with
  | nil => simp
  | cons x v ih =>
    cases z with
    | nil => simp
    | cons p z => simp [npClip_idem, ih]

theorem clip_q0_idem (rbt : Rbt) (q0 : List ℚ) :
    clip_q0 rbt (clip_q0 rbt q0) = clip_q0 rbt q0 := npClipVec_idem _ _ _

theorem clip_qf_idem (rbt : Rbt) (qf : List ℚ) (free_config_inds : List ℕ) :
    clip_qf rbt (clip_qf rbt qf free_config_inds) free_config_inds =
      clip_qf rbt qf free_config_inds := npClipVec_idem _ _ _

theorem qf_full_clip_invariant (rbt : Rbt) (q0 qf : List ℚ)
    (free_config_inds : List ℕ) :
    qf_full rbt (clip_q0 rbt q0) (clip_qf rbt qf free_config_inds)
      free_config_inds = qf_full rbt q0 qf free_config_inds := by
  unfold qf_full
  rw [clip_q0_idem, clip_qf_idem]

theorem q_seed_clip_invariant (rbt : Rbt) (q0 qf : List ℚ)
    (free_config_inds : List ℕ) (n_knots : ℕ) (duration : ℚ) :
    q_seed rbt (clip_q0 rbt q0) (clip_qf rbt qf free_config_inds)
      free_config_inds n_knots duration =
    q_seed rbt q0 qf free_config_inds n_knots duration := by
  funext i j
  unfold q_seed
  rw [clip_q0_idem, qf_full_clip_invariant]

theorem posture_constraints_clip_invariant (rbt : Rbt) (q0 qf : List ℚ)
    (free_config_inds constrained_config_inds : List ℕ) (duration : ℚ) :
    posture_constraints_of rbt (clip_q0 rbt q0)
      (clip_qf rbt qf free_config_inds) free_config_inds
      constrained_config_inds duration =
    posture_constraints_of rbt q0 qf free_config_inds
      constrained_config_inds duration := by
  unfold posture_constraints_of
  rw [clip_q0_idem, clip_qf_idem]

/-- C10: `plan_trajectory_to_posture` clips `q0` to the model's joint limits
and `qf` to the controlled-subset limits before building any constraint:
the whole planning call is invariant under pre-projecting its inputs
(out-of-limit inputs are silently projected, never rejected), the
held-subset and final-posture constraints carry the clipped vectors, and
every bound entry is centered on a clipped value with radius 0.01. -/
theorem plan_to_posture_clips_and_projects (solver : TrajOracle) (rbt : Rbt)
    (q0 qf : List ℚ) (n_knots : ℕ) (duration start_time : ℚ)
    (free_config_inds constrained_config_inds : List ℕ) :
    plan_trajectory_to_posture solver rbt q0 qf n_knots duration start_time
        free_config_inds constrained_config_inds =
      plan_trajectory_to_posture solver rbt (clip_q0 rbt q0)
        (clip_qf rbt qf free_config_inds) n_knots duration start_time
        free_config_inds constrained_config_inds ∧
    (posture_constraints_of rbt q0 qf free_config_inds
        constrained_config_inds duration).getD 0 (.minDistance 0) =
      .postureLimits (0, duration) constrained_config_inds
        (addConst (subVec (clip_q0 rbt q0) constrained_config_inds)
          (-(1/100)))
        (addConst (subVec (clip_q0 rbt q0) constrained_config_inds)
          (1/100)) ∧
    (posture_constraints_of rbt q0 qf free_config_inds
        constrained_config_inds duration).getD 2 (.minDistance 0) =
      .postureLimits (duration, duration) free_config_inds
        (addConst (subVec (clip_qf rbt qf free_config_inds)
          free_config_inds) (-(1/100)))
        (addConst (subVec (clip_qf rbt qf free_config_inds)
          free_config_inds) (1/100)) ∧
    (∀ m, m < constrained_config_inds.length →
      (addConst (subVec (clip_q0 rbt q0) constrained_config_inds)
        (-(1/100))).getD m 0 =
        (clip_q0 rbt q0).getD (constrained_config_inds.getD m 0) 0 -
          1/100 ∧
      (addConst (subVec (clip_q0 rbt q0) constrained_config_inds)
        (1/100)).getD m 0 =
        (clip_q0 rbt q0).getD (constrained_config_inds.getD m 0) 0 +
          1/100) ∧
    (∀ m, m < free_config_inds.length →
      (addConst (subVec (clip_qf rbt qf free_config_inds)
        free_config_inds) (-(1/100))).getD m 0 =
        (clip_qf rbt qf free_config_inds).getD
          (free_config_inds.getD m 0) 0 - 1/100 ∧
      (addConst (subVec (clip_qf rbt qf free_config_inds)
        free_config_inds) (1/100)).getD m 0 =
        (clip_qf rbt qf free_config_inds).getD
          (free_config_inds.getD m 0) 0 + 1/100) := by
  refine ⟨?_, rfl, rfl, ?_, ?_⟩
  · unfold plan_trajectory_to_posture plan_to_posture_solve
    simp only [q_seed_clip_invariant, qf_full_clip_invariant,
      posture_constraints_clip_invariant]
  · intro m hm
    have hm' : m < (subVec (clip_q0 rbt q0)
        constrained_config_inds).length := by
      rw [subVec_length]; exact hm
    constructor
    · rw [addConst_getD _ _ m hm', subVec_getD _ _ m hm]
      ring
    · rw [addConst_getD _ _ m hm', subVec_getD _ _ m hm]
  · intro m hm
    have hm' : m < (subVec (clip_qf rbt qf free_config_inds)
        free_config_inds).length := by
      rw [subVec_length]; exact hm
    constructor
    · rw [addConst_getD _ _ m hm', subVec_getD _ _ m hm]
      ring
    · rw [addConst_getD _ _ m hm', subVec_getD _ _ m hm]

/-! ### C3: the end-effector ramp of `plan_ee_trajectory` -/

theorem findIdxAux_eq {α : Type} (p : α → Bool) (d : α) :
    ∀ (l : List α) (m : ℕ), m < l.length →
    (∀ j, j < m → p (l.getD j d) = false) → p (l.getD m d) = true →
    findIdxAux p l = m := by
  intro l
  induction l with
  | nil => intro m hm; simp at hm
  | cons x t ih =>
    intro m hm hbef hat
    cases m with
    | zero =>
      rw [findIdxAux, if_pos]
      simpa using hat
    | succ k =>
      have hx : p x = false := by simpa using hbef 0 (Nat.succ_pos k)
      rw [findIdxAux, if_neg (by simp [hx])]
      have hk : k < t.length := by simpa using hm
      rw [ih k hk (fun j hj => by simpa using hbef (j+1) (by omega))
        (by simpa using hat)]

theorem linspace_length (a b : ℚ) (n : ℕ) : (linspace a b n).length = n := by
  unfold linspace
  split <;> simp

/-- With `reach_time = grasp_time > 0`, the first knot time `≥ reach_time`
is the last knot, so `reach_start_index = n_knots - 2`. -/
theorem reach_start_index_at_end (g : ℚ) (n : ℕ) (hn : 2 ≤ n)
    (hg : 0 < g) : reach_start_index (linspace 0 g n) g = (n : ℤ) - 2 := by
  have hn1 : (1:ℚ) ≤ (n:ℚ) - 1 := by
    have : (2:ℚ) ≤ (n:ℚ) := by exact_mod_cast hn
    linarith
  have hidx : findIdxAux (fun x => decide (g ≤ x)) (linspace 0 g n) =
      n - 1 := by
    apply findIdxAux_eq _ 0 _ (n-1)
    · rw [linspace_length]; omega
    · intro j hj
      rw [linspace_getD 0 g n j hn (by omega)]
      have hj1 : (j:ℚ) ≤ (n:ℚ) - 2 := by
        have : (j:ℚ) + 2 ≤ (n:ℚ) := by exact_mod_cast (by omega : j + 2 ≤ n)
        linarith
      have hlt : 0 + (g - 0) * (j:ℚ) / ((n:ℚ) - 1) < g := by
        rw [zero_add, sub_zero, div_lt_iff (by linarith)]
        nlinarith
      simpa using not_le_of_lt hlt
    · rw [linspace_getD 0 g n (n-1) hn (by omega)]
      have hcast : (((n-1 : ℕ)):ℚ) = (n:ℚ) - 1 := by
        have : 1 ≤ n := by omega
        push_cast [this]
        ring
      rw [hcast]
      have : 0 + (g - 0) * ((n:ℚ) - 1) / ((n:ℚ) - 1) = g := by
        rw [zero_add, sub_zero, mul_div_assoc,
          div_self (by linarith : ((n:ℚ) - 1) ≠ 0), mul_one]
      rw [this]
      simp
  unfold reach_start_index np_argmax_ge
  rw [hidx, linspace_length, if_pos (by omega)]
  have : ((n - 1 : ℕ) : ℤ) = (n : ℤ) - 1 := by
    have : 1 ≤ n := by omega
    push_cast [this]
    ring
  rw [this]
  ring

/-- C3 counterexample: with `reach_time = grasp_time = 1` and three knots,
`reach_start_index = 1` and the final knot's interpolation factor is `1/2`,
not `1`; the final knot targets the midpoint of the two poses, not
`target_grasp_pose` (kuka_ik.py line 224 divides by
`n_knots - reach_start_index`, so the factor never reaches 1). -/
theorem ee_ramp_not_saturating :
    interp_factor 3 (reach_start_index (linspace 0 1 3) 1) 2 = 1/2 ∧
    ee_knot_target [0, 0, 0, 0, 0, 0] [1, 1, 1, 1, 1, 1]
        (interp_factor 3 (reach_start_index (linspace 0 1 3) 1) 2) ≠
      [1, 1, 1, 1, 1, 1] := by
  have hrsi : reach_start_index (linspace 0 1 3) 1 = 1 := by
    rw [reach_start_index_at_end 1 3 (by norm_num) (by norm_num)]
    norm_num
  rw [hrsi]
  have hf : interp_factor 3 1 2 = 1/2 := by
    unfold interp_factor
    norm_num
  refine ⟨hf, ?_⟩
  rw [hf]
  unfold ee_knot_target
  norm_num

/-- C3 (amended): with `reach_time = grasp_time > 0` the reach knot is
`n_knots - 2` and only the last two knots carry end-effector constraints,
with interpolation factors `0` and `1/2`: the final knot targets the
midpoint of `reach_pose` and `grasp_pose`, and the factor stays strictly
below 1 at every knot — `grasp_pose` itself is never targeted exactly. -/
theorem ee_ramp_reach_equals_grasp (target_reach_pose
    target_grasp_pose : List ℚ) (n : ℕ) (g : ℚ) (hn : 2 ≤ n) (hg : 0 < g) :
    reach_start_index (linspace 0 g n) g = (n:ℤ) - 2 ∧
    interp_factor n ((n:ℤ) - 2) ((n:ℤ) - 2) = 0 ∧
    interp_factor n ((n:ℤ) - 2) ((n:ℤ) - 1) = 1/2 ∧
    ee_knot_target target_reach_pose target_grasp_pose
        (interp_factor n ((n:ℤ) - 2) ((n:ℤ) - 1)) =
      List.zipWith (fun r g' => (r + g')/2) target_reach_pose
        target_grasp_pose ∧
    (∀ i : ℤ, i < (n:ℤ) → interp_factor n ((n:ℤ) - 2) i < 1) := by
  have hzero : interp_factor n ((n:ℤ) - 2) ((n:ℤ) - 2) = 0 := by
    unfold interp_factor
    rw [sub_self, zero_div]
  have hden : (n:ℚ) - (((n:ℤ) - 2 : ℤ) : ℚ) = 2 := by
    push_cast
    ring
  have hhalf : interp_factor n ((n:ℤ) - 2) ((n:ℤ) - 1) = 1/2 := by
    unfold interp_factor
    rw [hden]
    have : ((((n:ℤ) - 1 : ℤ)):ℚ) - (((n:ℤ) - 2 : ℤ):ℚ) = 1 := by
      push_cast
      ring
    rw [this]
  refine ⟨reach_start_index_at_end g n hn hg, hzero, hhalf, ?_, ?_⟩
  · unfold ee_knot_target
    rw [hhalf]
    congr 1
    funext r g'
    ring
  · intro i hi
    unfold interp_factor
    rw [hden, div_lt_one (by norm_num)]
    have : (i:ℚ) < (n:ℚ) := by exact_mod_cast hi
    push_cast
    linarith

/-- Witness for C3 (amended) at three knots, `reach = grasp = 1`. -/
theorem ee_ramp_reach_equals_grasp_witness :
    reach_start_index (linspace 0 1 3) 1 = (3:ℤ) - 2 ∧
    interp_factor 3 ((3:ℤ) - 2) ((3:ℤ) - 2) = 0 ∧
    interp_factor 3 ((3:ℤ) - 2) ((3:ℤ) - 1) = 1/2 ∧
    ee_knot_target [0, 0, 0, 0, 0, 0] [1, 1, 1, 1, 1, 1]
        (interp_factor 3 ((3:ℤ) - 2) ((3:ℤ) - 1)) =
      List.zipWith (fun r g' => (r + g')/2) [0, 0, 0, 0, 0, 0]
        [1, 1, 1, 1, 1, 1] ∧
    (∀ i : ℤ, i < (3:ℤ) → interp_factor 3 ((3:ℤ) - 2) i < 1) :=
  ee_ramp_reach_equals_grasp [0, 0, 0, 0, 0, 0] [1, 1, 1, 1, 1, 1] 3 1
    (by norm_num) (by norm_num)

/-! ### C5: PCHIP stays inside the band of its knot values

The classical shape-preservation argument: the Fritsch-Carlson slopes lie in
`[0, 3*secant]` on any non-decreasing data interval, and a cubic Hermite
segment whose end slopes lie in that box stays between its endpoint
values. -/

theorem fc_nonneg_le_right (h0 h1 a b : ℚ) (hh0 : 0 < h0) (hh1 : 0 < h1)
    (hb : 0 ≤ b) : 0 ≤ fcSlope h0 h1 a b ∧ fcSlope h0 h1 a b ≤ 3 * b := by
  unfold fcSlope
  split_ifs with hab
  · have hbpos : 0 < b := by
      rcases lt_or_eq_of_le hb with h | h
      · exact h
      · exfalso; rw [← h] at hab; simp at hab
    have hapos : 0 < a := by
      by_contra hcon
      push_neg at hcon
      nlinarith
    have hq : 0 < (2*h1 + h0)/a + (h1 + 2*h0)/b :=
      add_pos (div_pos (by linarith) hapos) (div_pos (by linarith) hbpos)
    constructor
    · exact le_of_lt (div_pos (by linarith) hq)
    · rw [div_le_iff hq]
      have hexp : 3*b*((2*h1 + h0)/a + (h1 + 2*h0)/b) =
          3*b*(2*h1 + h0)/a + 3*(h1 + 2*h0) := by
        field_simp
        ring
      have hnn : 0 ≤ 3*b*(2*h1 + h0)/a :=
        le_of_lt (div_pos (by nlinarith) hapos)
      rw [hexp]
      linarith
  · exact ⟨le_refl 0, by linarith⟩

theorem fc_nonneg_le_left (h0 h1 a b : ℚ) (hh0 : 0 < h0) (hh1 : 0 < h1)
    (ha : 0 ≤ a) : 0 ≤ fcSlope h0 h1 a b ∧ fcSlope h0 h1 a b ≤ 3 * a := by
  unfold fcSlope
  split_ifs with hab
  · have hapos : 0 < a := by
      rcases lt_or_eq_of_le ha with h | h
      · exact h
      · exfalso; rw [← h] at hab; simp at hab
    have hbpos : 0 < b := by
      by_contra hcon
      push_neg at hcon
      nlinarith
    have hq : 0 < (2*h1 + h0)/a + (h1 + 2*h0)/b :=
      add_pos (div_pos (by linarith) hapos) (div_pos (by linarith) hbpos)
    constructor
    · exact le_of_lt (div_pos (by linarith) hq)
    · rw [div_le_iff hq]
      have hexp : 3*a*((2*h1 + h0)/a + (h1 + 2*h0)/b) =
          3*(2*h1 + h0) + 3*a*(h1 + 2*h0)/b := by
        field_simp
        ring
      have hnn : 0 ≤ 3*a*(h1 + 2*h0)/b :=
        le_of_lt (div_pos (by nlinarith) hbpos)
      rw [hexp]
      linarith
  · exact ⟨le_refl 0, by linarith⟩

theorem fc_neg (h0 h1 a b : ℚ) :
    fcSlope h0 h1 (-a) (-b) = -fcSlope h0 h1 a b := by
  unfold fcSlope
  have hc : -a * -b = a * b := by ring
  rw [hc]
  split_ifs with hab
  · rw [div_neg, div_neg, ← neg_add, div_neg]
  · exact neg_zero.symm

theorem secant_neg (vals : ℕ → ℚ) (h : ℚ) (k : ℕ) :
    secant (fun n => -vals n) h k = -secant vals h k := by
  unfold secant
  ring

theorem pchipSlope_neg (K : ℕ) (vals : ℕ → ℚ) (h : ℚ) (k : ℕ) :
    pchipSlope K (fun n => -vals n) h k = -pchipSlope K vals h k := by
  unfold pchipSlope
  split_ifs
  · exact neg_zero.symm
  · rw [secant_neg, secant_neg, fc_neg]

theorem hermite_neg (y0 y1 d0 d1 h τ : ℚ) :
    hermite (-y0) (-y1) (-d0) (-d1) h τ = -hermite y0 y1 d0 d1 h τ := by
  unfold hermite
  ring

theorem pchipEvalU_neg (t0 h : ℚ) (K : ℕ) (vals : ℕ → ℚ) (t : ℚ) :
    pchipEvalU t0 h K (fun n => -vals n) t = -pchipEvalU t0 h K vals t := by
  unfold pchipEvalU
  rw [pchipSlope_neg, pchipSlope_neg]
  exact hermite_neg _ _ _ _ _ _

theorem pchipSlope_box_right (K : ℕ) (vals : ℕ → ℚ) (h : ℚ) (k : ℕ)
    (hh : 0 < h) (hsec : 0 ≤ secant vals h k) :
    0 ≤ pchipSlope K vals h k ∧
      pchipSlope K vals h k ≤ 3 * secant vals h k := by
  unfold pchipSlope
  split_ifs
  · exact ⟨le_refl 0, by linarith⟩
  · exact fc_nonneg_le_right h h _ _ hh hh hsec

theorem pchipSlope_box_left (K : ℕ) (vals : ℕ → ℚ) (h : ℚ) (k : ℕ)
    (hh : 0 < h) (hsec : 0 ≤ secant vals h k) :
    0 ≤ pchipSlope K vals h (k+1) ∧
      pchipSlope K vals h (k+1) ≤ 3 * secant vals h k := by
  by_cases hK : k + 1 + 1 = K
  · have hz : pchipSlope K vals h (k+1) = 0 := by
      unfold pchipSlope
      rw [if_pos (Or.inr hK)]
    rw [hz]
    exact ⟨le_refl 0, by linarith⟩
  · have hz : pchipSlope K vals h (k+1) =
        fcSlope h h (secant vals h k) (secant vals h (k+1)) := by
      unfold pchipSlope
      rw [if_neg (fun hcon => hcon.elim (fun h0 => by omega) hK),
        Nat.add_sub_cancel]
    rw [hz]
    exact fc_nonneg_le_left h h _ _ hh hh hsec

theorem hermite_mem_band (y0 y1 d0 d1 h τ : ℚ) (hh : 0 < h) (hτ0 : 0 ≤ τ)
    (hτh : τ ≤ h) (hy : y0 ≤ y1) (hd00 : 0 ≤ d0)
    (hd0u : d0 * h ≤ 3*(y1 - y0)) (hd10 : 0 ≤ d1)
    (hd1u : d1 * h ≤ 3*(y1 - y0)) :
    y0 ≤ hermite y0 y1 d0 d1 h τ ∧ hermite y0 y1 d0 d1 h τ ≤ y1 := by
  have hne : h ≠ 0 := ne_of_gt hh
  have key1 : (hermite y0 y1 d0 d1 h τ - y0) * h^3 =
      (y1 - y0)*τ^3 + (d0*h)*(τ*(h - τ)^2) +
        (3*(y1 - y0) - d1*h)*(τ^2*(h - τ)) := by
    unfold hermite
    field_simp
    ring
  have key2 : (y1 - hermite y0 y1 d0 d1 h τ) * h^3 =
      (y1 - y0)*(h - τ)^3 + (3*(y1 - y0) - d0*h)*(τ*(h - τ)^2) +
        (d1*h)*(τ^2*(h - τ)) := by
    unfold hermite
    field_simp
    ring
  have hY : 0 ≤ y1 - y0 := sub_nonneg.2 hy
  have hhτ : 0 ≤ h - τ := sub_nonneg.2 hτh
  have p1 : 0 ≤ τ*(h - τ)^2 := mul_nonneg hτ0 (sq_nonneg _)
  have p2 : 0 ≤ τ^2*(h - τ) := mul_nonneg (sq_nonneg _) hhτ
  have p3 : 0 ≤ τ^3 := pow_nonneg hτ0 3
  have p4 : 0 ≤ (h - τ)^3 := pow_nonneg hhτ 3
  have h3 : 0 < h^3 := pow_pos hh 3
  constructor
  · have hR : 0 ≤ (hermite y0 y1 d0 d1 h τ - y0) * h^3 := by
      rw [key1]
      have e1 := mul_nonneg hY p3
      have e2 := mul_nonneg (mul_nonneg hd00 hh.le) p1
      have e3 := mul_nonneg (sub_nonneg.2 hd1u) p2
      linarith
    have := (mul_nonneg_iff_of_pos_right h3).1 hR
    linarith
  · have hR : 0 ≤ (y1 - hermite y0 y1 d0 d1 h τ) * h^3 := by
      rw [key2]
      have e1 := mul_nonneg hY p4
      have e2 := mul_nonneg (sub_nonneg.2 hd0u) p1
      have e3 := mul_nonneg (mul_nonneg hd10 hh.le) p2
      linarith
    have := (mul_nonneg_iff_of_pos_right h3).1 hR
    linarith

/-- The monotone-segment case of the band property, phrased at the segment
`pchipSeg t0 h K t` with precomputed offset bounds. -/
theorem pchip_band_incr (t0 h : ℚ) (K : ℕ) (vals : ℕ → ℚ) (c ε t : ℚ)
    (hh : 0 < h)
    (hb0 : |vals (pchipSeg t0 h K t) - c| ≤ ε)
    (hb1 : |vals (pchipSeg t0 h K t + 1) - c| ≤ ε)
    (hmono : vals (pchipSeg t0 h K t) ≤ vals (pchipSeg t0 h K t + 1))
    (hτ0 : 0 ≤ t - (t0 + (pchipSeg t0 h K t : ℚ) * h))
    (hτh : t - (t0 + (pchipSeg t0 h K t : ℚ) * h) ≤ h) :
    |pchipEvalU t0 h K vals t - c| ≤ ε := by
  have hsec : 0 ≤ secant vals h (pchipSeg t0 h K t) :=
    div_nonneg (by linarith) hh.le
  obtain ⟨hd00, hd0u⟩ := pchipSlope_box_right K vals h (pchipSeg t0 h K t)
    hh hsec
  obtain ⟨hd10, hd1u⟩ := pchipSlope_box_left K vals h (pchipSeg t0 h K t)
    hh hsec
  have hsech : 3 * secant vals h (pchipSeg t0 h K t) * h =
      3*(vals (pchipSeg t0 h K t + 1) - vals (pchipSeg t0 h K t)) := by
    unfold secant
    field_simp
  have hd0u' : pchipSlope K vals h (pchipSeg t0 h K t) * h ≤
      3*(vals (pchipSeg t0 h K t + 1) - vals (pchipSeg t0 h K t)) := by
    have := mul_le_mul_of_nonneg_right hd0u hh.le
    rw [hsech] at this
    exact this
  have hd1u' : pchipSlope K vals h (pchipSeg t0 h K t + 1) * h ≤
      3*(vals (pchipSeg t0 h K t + 1) - vals (pchipSeg t0 h K t)) := by
    have := mul_le_mul_of_nonneg_right hd1u hh.le
    rw [hsech] at this
    exact this
  obtain ⟨hlow, hhigh⟩ := hermite_mem_band (vals (pchipSeg t0 h K t))
    (vals (pchipSeg t0 h K t + 1)) (pchipSlope K vals h (pchipSeg t0 h K t))
    (pchipSlope K vals h (pchipSeg t0 h K t + 1)) h
    (t - (t0 + (pchipSeg t0 h K t : ℚ) * h)) hh hτ0 hτh hmono hd00 hd0u'
    hd10 hd1u'
  rw [abs_le] at hb0 hb1 ⊢
  unfold pchipEvalU
  constructor <;> [linarith [hb0.1, hlow]; linarith [hb1.2, hhigh]]

/-- Modelled from the spec: the shape-preserving interpolant never leaves
the band containing its knot values — sampling PCHIP anywhere in its domain
yields a value within `ε` of `c` whenever every knot value is. -/
theorem pchip_band (t0 h : ℚ) (K : ℕ) (vals : ℕ → ℚ) (c ε t : ℚ)
    (hh : 0 < h) (hK : 2 ≤ K)
    (hband : ∀ k, k < K → |vals k - c| ≤ ε)
    (ht0 : t0 ≤ t) (ht1 : t ≤ t0 + ((K:ℚ) - 1) * h) :
    |pchipEvalU t0 h K vals t - c| ≤ ε := by
  have hkK2 : pchipSeg t0 h K t ≤ K - 2 := min_le_left _ _
  have hkK : pchipSeg t0 h K t + 1 < K := by omega
  have hy : (0:ℚ) ≤ (t - t0)/h := div_nonneg (by linarith) hh.le
  have hfl0 : 0 ≤ ⌊(t - t0)/h⌋ := Int.floor_nonneg.2 hy
  have hτ0 : 0 ≤ t - (t0 + (pchipSeg t0 h K t : ℚ) * h) := by
    have h2 : ((pchipSeg t0 h K t : ℕ) : ℤ) ≤ ⌊(t - t0)/h⌋ := by
      have h3 : pchipSeg t0 h K t ≤ ⌊(t - t0)/h⌋.toNat :=
        min_le_right _ _
      omega
    have h1 : ((pchipSeg t0 h K t : ℕ) : ℚ) ≤ (t - t0)/h :=
      le_trans (by exact_mod_cast h2) (Int.floor_le _)
    have h4 := (le_div_iff hh).1 h1
    linarith
  have hτh : t - (t0 + (pchipSeg t0 h K t : ℚ) * h) ≤ h := by
    by_cases hc : ⌊(t - t0)/h⌋.toNat ≤ K - 2
    · have hkeq : pchipSeg t0 h K t = ⌊(t - t0)/h⌋.toNat :=
        min_eq_right hc
      have h2 : (t - t0)/h < (⌊(t - t0)/h⌋ : ℚ) + 1 :=
        Int.lt_floor_add_one _
      have h3 : ((⌊(t - t0)/h⌋.toNat : ℕ) : ℚ) = (⌊(t - t0)/h⌋ : ℚ) := by
        exact_mod_cast congrArg (Int.cast : ℤ → ℚ)
          (Int.toNat_of_nonneg hfl0)
      have h4 : (t - t0)/h < ((pchipSeg t0 h K t : ℕ) : ℚ) + 1 := by
        rw [hkeq, h3]
        exact h2
      have h5 := (div_lt_iff hh).1 h4
      linarith
    · push_neg at hc
      have hkeq : pchipSeg t0 h K t = K - 2 := min_eq_left (le_of_lt hc)
      have hcast : ((K - 2 : ℕ) : ℚ) = (K:ℚ) - 2 := by
        have h5 : (2:ℕ) ≤ K := hK
        push_cast [h5]
        ring
      rw [hkeq, hcast]
      linarith
  have hb0 := hband (pchipSeg t0 h K t) (by omega)
  have hb1 := hband (pchipSeg t0 h K t + 1) hkK
  rcases le_total (vals (pchipSeg t0 h K t))
    (vals (pchipSeg t0 h K t + 1)) with hmono | hmono
  · exact pchip_band_incr t0 h K vals c ε t hh hb0 hb1 hmono hτ0 hτh
  · have hres := pchip_band_incr t0 h K (fun n => -vals n) (-c) ε t hh
      (by rw [show -vals (pchipSeg t0 h K t) - -c =
          -(vals (pchipSeg t0 h K t) - c) by ring, abs_neg]; exact hb0)
      (by rw [show -vals (pchipSeg t0 h K t + 1) - -c =
          -(vals (pchipSeg t0 h K t + 1) - c) by ring, abs_neg]; exact hb1)
      (by simpa using neg_le_neg hmono) hτ0 hτh
    rw [pchipEvalU_neg, show -pchipEvalU t0 h K vals t - -c =
      -(pchipEvalU t0 h K vals t - c) by ring, abs_neg] at hres
    exact hres

/-- C5 (amended): for every `plan_trajectory_to_posture` call with at least
two knots and positive duration, if the external solver's knot rows satisfy
the posted posture constraints then sampling the returned trajectory at any
time in its domain yields, for each held-subset joint, a value within
exactly 0.01 of that joint's value in the **clipped** `q0` (which equals the
caller's `q0` whenever `q0` respects the joint limits). -/
theorem plan_to_posture_held_within_tolerance (solver : TrajOracle)
    (rbt : Rbt) (q0 qf : List ℚ)
    (free_config_inds constrained_config_inds : List ℕ)
    (n_knots : ℕ) (duration start_time t : ℚ) (j : ℕ)
    (hn : 2 ≤ n_knots) (hD : 0 < duration)
    (hj : j ∈ constrained_config_inds)
    (hsat : ∀ c ∈ posture_constraints_of rbt q0 qf free_config_inds
        constrained_config_inds duration, ∀ k, k < n_knots →
      constraint_holds_at c ((linspace 0 duration n_knots).getD k 0)
        ((plan_to_posture_solve solver rbt q0 qf free_config_inds
          constrained_config_inds n_knots duration).q_sol.getD k []) = true)
    (ht0 : start_time ≤ t) (ht1 : t ≤ start_time + duration) :
    |(plan_trajectory_to_posture solver rbt q0 qf n_knots duration
        start_time free_config_inds constrained_config_inds).1.eval t j -
      (clip_q0 rbt q0).getD j 0| ≤ 1/100 := by
  have hn' : (2:ℚ) ≤ (n_knots:ℚ) := by exact_mod_cast hn
  have hden : (0:ℚ) < (n_knots:ℚ) - 1 := by linarith
  have hh : 0 < duration / ((n_knots:ℚ) - 1) := div_pos hD hden
  obtain ⟨m, hm, hgetm⟩ := List.mem_iff_getElem.1 hj
  have hmem : (IkConstraint.postureLimits (0, duration)
      constrained_config_inds
      (addConst (subVec (clip_q0 rbt q0) constrained_config_inds)
        (-(1/100)))
      (addConst (subVec (clip_q0 rbt q0) constrained_config_inds)
        (1/100))) ∈
      posture_constraints_of rbt q0 qf free_config_inds
        constrained_config_inds duration := by
    unfold posture_constraints_of
    exact List.mem_cons_self _ _
  have hband : ∀ k, k < n_knots →
      |((plan_to_posture_solve solver rbt q0 qf free_config_inds
          constrained_config_inds n_knots duration).q_sol.getD k []).getD
        j 0 - (clip_q0 rbt q0).getD j 0| ≤ 1/100 := by
    intro k hk
    have hsk := hsat _ hmem k hk
    have htsk : (linspace 0 duration n_knots).getD k 0 =
        (k:ℚ) * duration / ((n_knots:ℚ) - 1) := by
      rw [linspace_getD 0 duration n_knots k hn hk]
      ring
    have hts0 : (0:ℚ) ≤ (linspace 0 duration n_knots).getD k 0 := by
      rw [htsk]
      positivity
    have htsD : (linspace 0 duration n_knots).getD k 0 ≤ duration := by
      rw [htsk, div_le_iff hden]
      have hk1 : (k:ℚ) + 1 ≤ (n_knots:ℚ) := by exact_mod_cast hk
      nlinarith
    simp only [constraint_holds_at] at hsk
    rw [if_pos ⟨hts0, htsD⟩, List.all_eq_true] at hsk
    have hmm := hsk m (List.mem_range.2 hm)
    simp only [Bool.and_eq_true, decide_eq_true_eq] at hmm
    obtain ⟨hlo, hhi⟩ := hmm
    have hjm : constrained_config_inds.getD m 0 = j := by
      rw [List.getD_eq_getElem _ _ hm]
      exact hgetm
    have hmsub : m < (subVec (clip_q0 rbt q0)
        constrained_config_inds).length := by
      rw [subVec_length]
      exact hm
    rw [addConst_getD _ _ m hmsub, subVec_getD _ _ m hm, hjm] at hlo hhi
    rw [abs_le]
    constructor <;> linarith
  have hcast : t ≤ start_time +
      ((n_knots:ℚ) - 1) * (duration / ((n_knots:ℚ) - 1)) := by
    rw [← mul_div_assoc, mul_div_cancel_left₀ _ (ne_of_gt hden)]
    exact ht1
  exact pchip_band start_time (duration / ((n_knots:ℚ) - 1)) n_knots
    (fun k => ((plan_to_posture_solve solver rbt q0 qf free_config_inds
      constrained_config_inds n_knots duration).q_sol.getD k []).getD j 0)
    ((clip_q0 rbt q0).getD j 0) (1/100) t hh hn hband ht0 hcast

/-- C5 counterexample: the claim measures the band around the caller's `q0`,
but line 104 clips `q0` to the joint limits first.  With limits `[-1, 1]`,
`q0 = [2]`, held subset `{0}`, the posted band is `[0.99, 1.01]` (centered
on the clipped value `1`); the solver rows `[1], [1]` satisfy every posted
constraint, yet the sampled trajectory value `1` is at distance `1 > 0.01`
from `q0`'s value `2`. -/
theorem plan_to_posture_held_band_counterexample :
    (∀ c ∈ posture_constraints_of ⟨1, 1, [-1], [1]⟩ [2] [] [] [0] 1,
      ∀ k, k < 2 →
      constraint_holds_at c ((linspace 0 1 2).getD k 0)
        ((plan_to_posture_solve (fun _ _ _ _ _ _ => ⟨[[1], [1]], 1⟩)
          ⟨1, 1, [-1], [1]⟩ [2] [] [] [0] 2 1).q_sol.getD k []) = true) ∧
    ¬ |(plan_trajectory_to_posture (fun _ _ _ _ _ _ => ⟨[[1], [1]], 1⟩)
        ⟨1, 1, [-1], [1]⟩ [2] [] 2 1 0 [] [0]).1.eval 0 0 -
      List.getD [2] 0 (0:ℚ)| ≤ 1/100 := by
  have hclip : clip_q0 ⟨1, 1, [-1], [1]⟩ [2] = [1] := by
    simp [clip_q0, npClipVec, npClip]
    try norm_num [min_def, max_def]
  have hts0 : (linspace 0 1 2).getD 0 0 = 0 := by
    rw [linspace_getD 0 1 2 0 (by norm_num) (by norm_num)]
    norm_num
  have hts1 : (linspace 0 1 2).getD 1 0 = 1 := by
    rw [linspace_getD 0 1 2 1 (by norm_num) (by norm_num)]
    norm_num
  constructor
  · intro c hc k hk
    simp only [posture_constraints_of, hclip] at hc
    interval_cases k <;> rw [List.mem_cons, List.mem_cons,
        List.mem_singleton] at hc <;>
      rcases hc with rfl | rfl | rfl <;>
      simp [constraint_holds_at, hts0, hts1, subVec, addConst,
        plan_to_posture_solve, List.range_succ] <;>
      try norm_num
  · have heval : (plan_trajectory_to_posture
        (fun _ _ _ _ _ _ => ⟨[[1], [1]], 1⟩)
        ⟨1, 1, [-1], [1]⟩ [2] [] 2 1 0 [] [0]).1.eval 0 0 = 1 := by
      norm_num [plan_trajectory_to_posture, plan_to_posture_solve,
        PchipTraj.eval, pchipEvalU, pchipSeg, pchipSlope, hermite]
    rw [heval]
    norm_num

/-- Witness for C5 (amended): an in-limits instance where the solver rows
sit exactly at the clipped `q0`. -/
theorem plan_to_posture_held_within_tolerance_witness :
    |(plan_trajectory_to_posture (fun _ _ _ _ _ _ => ⟨[[0], [0]], 1⟩)
        ⟨1, 1, [-10], [10]⟩ [0] [] 2 1 0 [] [0]).1.eval (1/2) 0 -
      (clip_q0 ⟨1, 1, [-10], [10]⟩ [0]).getD 0 0| ≤ 1/100 :=
  plan_to_posture_held_within_tolerance (fun _ _ _ _ _ _ => ⟨[[0], [0]], 1⟩)
    ⟨1, 1, [-10], [10]⟩ [0] [] [] [0] 2 1 0 (1/2) 0
    (by norm_num) (by norm_num) (by decide)
    (by
      have hclip : clip_q0 ⟨1, 1, [-10], [10]⟩ [0] = [0] := by
        simp [clip_q0, npClipVec, npClip]
      have hts0 : (linspace 0 1 2).getD 0 0 = 0 := by
        rw [linspace_getD 0 1 2 0 (by norm_num) (by norm_num)]
        norm_num
      have hts1 : (linspace 0 1 2).getD 1 0 = 1 := by
        rw [linspace_getD 0 1 2 1 (by norm_num) (by norm_num)]
        norm_num
      intro c hc k hk
      simp only [posture_constraints_of, hclip] at hc
      interval_cases k <;> rw [List.mem_cons, List.mem_cons,
          List.mem_singleton] at hc <;>
        rcases hc with rfl | rfl | rfl <;>
        simp [constraint_holds_at, hts0, hts1, subVec, addConst,
          plan_to_posture_solve, List.range_succ] <;>
        try norm_num)
    (by norm_num) (by norm_num)

end PydrakeKuka
